import Mathlib

/-!
Shallow embedding of the streaming folder-statistics core of
`src/space_extractor_modern.py` (the Disc-cleaner repository):

* the Python `heapq` operations `heappush` / `heappushpop` (with the
  `_siftdown` / `_siftup` helpers) over lists of `(size, path)` pairs,
  compared with Python tuple (lexicographic) comparison;
* `_make_ext_summary` and `_heap_to_list` (Python `sorted` with a key and
  `reverse=True` is a stable descending sort, modelled by a stable
  insertion sort);
* `collect_folder_stats_streaming`: the per-file accumulation loop with
  cancellation checks, progress callbacks (whose exceptions are caught by
  `try/except: pass`, modelled in an `Except` monad), and the final
  progress event;
* extension classification `Path(fp).suffix.lower() or "<no-ext>"`
  (with `pathlib`'s definition of `suffix`);
* `quick_count_files` and the directory-walk structure (`os.walk` with
  `topdown=True`; by default `os.walk` does not descend into symbolic
  links, and `collect_folder_stats_streaming` additionally prunes mount
  points from `dirnames`).

The scan consumes a stream of file records `(path, sizeReadResult)`
produced by the walk; a `none` size-read result models `os.path.getsize`
raising, which the code turns into size 0.
-/

namespace SpaceExtractor

/-- A heap element, the Python tuple `(sz, fp)` pushed at lines 138/140. -/
abbrev Item := Nat × String

/-- Python tuple comparison `(sz1, fp1) < (sz2, fp2)`: lexicographic on the
size, then on the path string. -/
def itemLt (a b : Item) : Prop :=
  a.1 < b.1 ∨ (a.1 = b.1 ∧ a.2 < b.2)

instance itemLt.instDecidable : ∀ a b : Item, Decidable (itemLt a b) :=
  fun a b => by unfold itemLt; exact inferInstance

/-- `a` is not greater than `b` in the Python tuple order. -/
def ile (a b : Item) : Prop := ¬ itemLt b a

/-- List indexing with the (never used in-range) default element,
mirroring `heap[i]`. -/
def nthI (h : List Item) (i : Nat) : Item := h.getD i (0, "")

/-- Python `heapq._siftdown(heap, startpos, pos)` where `newitem` is the
element conceptually at `pos`: bubble the new item towards the root while
it is smaller than its parent. -/
def siftdown (heap : List Item) (startpos pos : Nat) (newitem : Item) :
    List Item :=
  if h : startpos < pos then
    let parentpos := (pos - 1) / 2
    let parent := nthI heap parentpos
    if itemLt newitem parent then
      siftdown (heap.set pos parent) startpos parentpos newitem
    else
      heap.set pos newitem
  else
    heap.set pos newitem
termination_by pos
decreasing_by
  omega

/-- Python `heapq._siftup(heap, pos)` main loop: move the hole at `pos`
down to a leaf, always towards the smaller child, then place `newitem`
there and call `_siftdown`. -/
def siftupAux (heap : List Item) (endpos startpos pos : Nat)
    (newitem : Item) : List Item :=
  let childpos := 2 * pos + 1
  if h : childpos < endpos then
    let rightpos := childpos + 1
    let childpos2 :=
      if rightpos < endpos ∧ ¬ itemLt (nthI heap childpos) (nthI heap rightpos)
      then rightpos else childpos
    siftupAux (heap.set pos (nthI heap childpos2)) endpos startpos childpos2
      newitem
  else
    siftdown (heap.set pos newitem) startpos pos newitem
termination_by endpos - pos
decreasing_by
  split <;> omega

/-- Python `heapq._siftup(heap, pos)`. -/
def siftup (heap : List Item) (pos : Nat) : List Item :=
  siftupAux heap heap.length pos pos (nthI heap pos)

/-- Python `heapq.heappush(heap, item)`: append, then sift down from the
last position. -/
def heappush (heap : List Item) (item : Item) : List Item :=
  siftdown (heap ++ [item]) 0 heap.length item

/-- Python `heapq.heappushpop(heap, item)` (the returned popped value is
discarded by the caller at line 140, so we model only the resulting
heap): if the heap is nonempty and `heap[0] < item`, replace the root by
`item` and sift up; otherwise the heap is unchanged. -/
def heappushpop (heap : List Item) (item : Item) : List Item :=
  match heap with
  | [] => heap
  | h0 :: _ => if itemLt h0 item then siftup (heap.set 0 item) 0 else heap

/-- One insertion step of a stable descending insertion sort by a `Nat`
key: `x` is placed before the first element whose key is not larger. -/
def insertByDesc {α : Type} (key : α → Nat) (x : α) : List α → List α
  | [] => [x]
  | y :: ys => if key y ≤ key x then x :: y :: ys else y :: insertByDesc key x ys

/-- Stable descending insertion sort by a `Nat` key.  This models Python
`sorted(l, key=..., reverse=True)`, which is the (unique) stable sort
ordering elements by descending key and keeping the input order on equal
keys. -/
def isortByDesc {α : Type} (key : α → Nat) : List α → List α
  | [] => []
  | x :: xs => insertByDesc key x (isortByDesc key xs)

/-- `_heap_to_list(h)` (line 88): `sorted(h, key=lambda x: x[0],
reverse=True)` — stable descending sort of the heap's internal list by
size. -/
def heap_to_list (h : List Item) : List Item :=
  isortByDesc (fun x => x.1) h

/-- `d[k] += v` on a Python `defaultdict(int)`: dicts preserve insertion
order, so the map is an association list in first-insertion order. -/
def bump (m : List (String × Nat)) (k : String) (v : Nat) :
    List (String × Nat) :=
  match m with
  | [] => [(k, v)]
  | (k2, v2) :: rest =>
      if k2 = k then (k2, v2 + v) :: rest else (k2, v2) :: bump rest k v

/-- `d.get(k, 0)` on the association-list model of a dict. -/
def lookupD (m : List (String × Nat)) (k : String) : Nat :=
  match m with
  | [] => 0
  | (k2, v2) :: rest => if k2 = k then v2 else lookupD rest k

/-- `_make_ext_summary(ext_counts, ext_sizes)` (lines 81-86): build
`(ext, cnt, ext_sizes.get(ext, 0))` triples in the dict's iteration
(first-insertion) order, then stable-sort by total size descending. -/
def make_ext_summary (counts sizes : List (String × Nat)) :
    List (String × Nat × Nat) :=
  isortByDesc (fun t => t.2.2)
    (counts.map (fun p => (p.1, p.2, lookupD sizes p.1)))

/-- Index (from the left) of the last `'.'` in a character list, if any;
models `str.rfind('.') `. -/
def lastDotPos : List Char → Option Nat
  | [] => none
  | c :: cs =>
      match lastDotPos cs with
      | some i => some (i + 1)
      | none => if c = '.' then some 0 else none

/-- `pathlib.PurePath.suffix` of a file name (the walk yields bare entry
names, so the name is the final path component): the substring from the
last `'.'` on, provided that dot is neither the first nor the last
character; otherwise the empty string. -/
def pySuffix (name : String) : String :=
  let cs := name.toList
  match lastDotPos cs with
  | some i =>
      if 0 < i ∧ i < cs.length - 1 then String.mk (cs.drop i) else ""
  | none => ""

/-- `Path(fp).suffix.lower() or "<no-ext>"` (line 133).  `str.lower` is
modelled by `Char.toLower` per character (all-ASCII suffixes behave
identically). -/
def extKey (name : String) : String :=
  let s := String.mk ((pySuffix name).toList.map Char.toLower)
  if s = "" then "<no-ext>" else s

/-- One file record fed to the scan by the directory walk: the joined
path and the result of `os.path.getsize` (`none` models the call raising,
which line 129 turns into size 0). -/
abbrev FileRec := String × Option Nat

/-- `sz` as computed at lines 126-129. -/
def effSize (r : FileRec) : Nat := r.2.getD 0

/-- The mutable local state of `collect_folder_stats_streaming`
(lines 98-104). -/
structure ScanState where
  extCounts : List (String × Nat)
  extSizes : List (String × Nat)
  totalFiles : Nat
  totalSize : Nat
  topHeap : List Item
  processed : Nat

/-- Initial state (lines 98-104). -/
def initState : ScanState :=
  { extCounts := [], extSizes := [], totalFiles := 0, totalSize := 0,
    topHeap := [], processed := 0 }

/-- The bounded top-K update (lines 137-140): push when fewer than
`top_n` items are held, otherwise push-pop. -/
def topStep (top_n : Nat) (h : List Item) (x : Item) : List Item :=
  if h.length < top_n then heappush h x else heappushpop h x

/-- Processing of one file record (lines 125-142): compute the effective
size, classify the extension, update counts, sizes, totals, the top heap
and the processed counter. -/
def observe (top_n : Nat) (st : ScanState) (r : FileRec) : ScanState :=
  let sz := effSize r
  let ext := extKey r.1
  { extCounts := bump st.extCounts ext 1
    extSizes := bump st.extSizes ext sz
    totalFiles := st.totalFiles + 1
    totalSize := st.totalSize + sz
    topHeap := topStep top_n st.topHeap (sz, r.1)
    processed := st.processed + 1 }

/-- `try: progress_callback(...) except Exception: pass` (lines 145-148
and 152-155): whatever the callback does, the guarded call returns
normally. -/
def callCb (cb : Nat → Except String Unit) (p : Nat) : Except String Unit :=
  match cb p with
  | Except.ok _ => Except.ok ()
  | Except.error _ => Except.ok ()

/-- The Python 4-tuple returned by `collect_folder_stats_streaming`:
`(total_files, total_size, ext_summary, top_files)`. -/
abbrev ScanResult := Nat × Nat × List (String × Nat × Nat) × List Item

/-- Project the accumulated state to the returned tuple (both the
cancelled return at line 123 and the normal return at line 159 build
exactly this value). -/
def mkResult (st : ScanState) : ScanResult :=
  (st.totalFiles, st.totalSize, make_ext_summary st.extCounts st.extSizes,
    heap_to_list st.topHeap)

/-- The file loop of `collect_folder_stats_streaming` (lines 107-155),
flattened over the stream of file records the pruned walk yields (the
cancellation flag is polled exactly once before each file, so the `k`-th
poll result is `cancel k`, 1-based).  The result carries, besides the
returned `ScanResult`'s state, two ghost observations that are not part
of the Python return value: the list of `processed` values passed to the
progress callback, and which exit was taken (`true` = the loop ran to
completion, `false` = the early cancelled return at line 123).  An
uncaught exception would surface as `Except.error`. -/
def scanLoopE (top_n N : Nat) (cb : Option (Nat → Except String Unit))
    (cancel : Nat → Bool) :
    List FileRec → ScanState → List Nat →
      Except String (ScanState × List Nat × Bool)
  | [], st, evs =>
      match cb with
      | none => Except.ok (st, evs, true)
      | some f =>
          match callCb f st.processed with
          | Except.error e => Except.error e
          | Except.ok _ => Except.ok (st, evs ++ [st.processed], true)
  | r :: rs, st, evs =>
      if cancel (st.processed + 1) then Except.ok (st, evs, false)
      else
        let st2 := observe top_n st r
        match cb with
        | none => scanLoopE top_n N cb cancel rs st2 evs
        | some f =>
            if st2.processed % N = 0 then
              match callCb f st2.processed with
              | Except.error e => Except.error e
              | Except.ok _ =>
                  scanLoopE top_n N cb cancel rs st2 (evs ++ [st2.processed])
            else scanLoopE top_n N cb cancel rs st2 evs

/-- `collect_folder_stats_streaming` (lines 91-159) over the stream of
file records yielded by the pruned walk of `folder`.  `total_estimate`
and the elapsed time are forwarded to the callback unchanged and never
affect control flow, so the modelled callback takes only the processed
count.  A `cancel_event` of `None` is the constantly-false poll. -/
def collect_folder_stats_streaming (stream : List FileRec)
    (progress_callback : Option (Nat → Except String Unit))
    (update_every top_n : Nat) (cancel_event : Nat → Bool) :
    Except String (ScanResult × List Nat × Bool) :=
  match scanLoopE top_n update_every progress_callback cancel_event stream
      initState [] with
  | Except.error e => Except.error e
  | Except.ok (st, evs, done) => Except.ok (mkResult st, evs, done)

/-- The constantly-unset cancellation flag (`cancel_event=None`). -/
def neverCancel : Nat → Bool := fun _ => false

/-- Pure accumulation of a stream of records (what the loop state is
after processing the whole stream uncancelled). -/
def accumulate (top_n : Nat) (stream : List FileRec) : ScanState :=
  stream.foldl (observe top_n) initState

/-- The processed-count values an uncancelled scan of `n` files with
interval `N` hands to the progress callback: one event whenever the
1-based processed count is a multiple of `N` (line 143), plus the
unconditional final event with the total (line 151). -/
def progressEvents (N n : Nat) : List Nat :=
  (List.range' 1 n).filter (fun q => q % N = 0) ++ [n]

mutual

/-- A directory snapshot: regular files (entry name, `getsize` result)
and subdirectory entries. -/
inductive Dir : Type where
  | node : List FileRec → Subs → Dir

/-- Subdirectory entries of one directory: entry name, whether
`os.path.islink` holds, whether `os.path.ismount` holds, and contents. -/
inductive Subs : Type where
  | nil : Subs
  | cons : String → Bool → Bool → Dir → Subs → Subs

end

mutual

/-- The stream of file records `collect_folder_stats_streaming`'s walk
yields (lines 107-125): `os.walk(folder, topdown=True)` emits the current
directory's files, and descent is pruned for entries that are symbolic
links or mount points (lines 109-118; `os.walk` itself already skips
symbolic links, the explicit prune additionally removes mount points). -/
def walkStream : Dir → List FileRec
  | .node files subs => files ++ walkSubs subs

def walkSubs : Subs → List FileRec
  | .nil => []
  | .cons _ lnk mnt d rest =>
      (if lnk || mnt then [] else walkStream d) ++ walkSubs rest

end

mutual

/-- `quick_count_files(path)` (lines 161-166): `os.walk(path)` with
default arguments counts every directory's `filenames`; `os.walk` does
not descend into symbolic links (default `followlinks=False`) but it does
descend into mount points. -/
def quick_count_files : Dir → Nat
  | .node files subs => files.length + quickSubsCount subs

def quickSubsCount : Subs → Nat
  | .nil => 0
  | .cons _ lnk _ d rest =>
      (if lnk then 0 else quick_count_files d) + quickSubsCount rest

end

mutual

/-- Number of file entries anywhere in the tree, with no pruning of any
kind — what a walk that performed "no symlink/mount pruning" would
count. -/
def allFilesCount : Dir → Nat
  | .node files subs => files.length + allSubsCount subs

def allSubsCount : Subs → Nat
  | .nil => 0
  | .cons _ _ _ d rest => allFilesCount d + allSubsCount rest

end

mutual

/-- The tree contains no symbolic-link and no mount-point directory
entries. -/
def dirClean : Dir → Bool
  | .node _ subs => subsClean subs

def subsClean : Subs → Bool
  | .nil => true
  | .cons _ lnk mnt d rest => !lnk && !mnt && dirClean d && subsClean rest

end

/-- `total_files` of an uncancelled `collect_folder_stats_streaming` run
over the tree (first component of the returned tuple; the callers use
`top_n=25`). -/
def scan_total_files (t : Dir) : Nat :=
  (accumulate 25 (walkStream t)).totalFiles

/-- A tree whose root holds a single symbolic-link directory entry that
contains one file. -/
def symTree : Dir :=
  Dir.node [] (Subs.cons "s" true false
    (Dir.node [("s/f.txt", some 1)] Subs.nil) Subs.nil)

/-- A tree whose root holds a single mount-point directory entry that
contains one file. -/
def mountTree : Dir :=
  Dir.node [] (Subs.cons "m" false true
    (Dir.node [("m/g.txt", some 2)] Subs.nil) Subs.nil)

/-- A tree with no symbolic-link and no mount-point entries: one file at
the root and one file in an ordinary subdirectory. -/
def cleanTree : Dir :=
  Dir.node [("a.txt", some 1)] (Subs.cons "d" false false
    (Dir.node [("d/b.txt", some 2)] Subs.nil) Subs.nil)

/-! ### Analysis-side definitions (heap invariant, spec-side readings) -/

/-- Parent index in the implicit binary heap. -/
def par (i : Nat) : Nat := (i - 1) / 2

/-- The `heapq` min-heap invariant: every non-root in-range position is
at least its parent. -/
def heapInv (h : List Item) : Prop :=
  ∀ i, 0 < i → i < h.length → ile (nthI h (par i)) (nthI h i)

/-- The running invariant of the bounded top-K structure: the heap is a
valid min-heap holding `min K n` of the `n` items seen so far, and every
item not held is at most (in the Python tuple order) every held item. -/
def TopInv (K : Nat) (seen : List Item) (h : List Item) : Prop :=
  heapInv h ∧ h.length = min K seen.length ∧
    ∃ rest : Multiset Item,
      (seen : Multiset Item) = (h : Multiset Item) + rest ∧
      ∀ r ∈ rest, ∀ y ∈ h, ile r y

/-- Spec-side reading for C1: "the K largest sizes of the full input",
as the multiset of the first `K` entries of the sizes sorted in
descending order. -/
def kLargestSizes (K : Nat) (sizes : List Nat) : Multiset Nat :=
  ((isortByDesc id sizes).take K : List Nat)

/-- Spec-side reading for C7's extension-aggregate ordering: totalBytes
descending with ties broken by lexical key ascending, as a condition on
adjacent rows. -/
def extRowsSpecOrdered (l : List (String × Nat × Nat)) : Prop :=
  l.Chain' (fun a b => b.2.2 < a.2.2 ∨ (a.2.2 = b.2.2 ∧ a.1 < b.1))

/-- Spec-side reading for C6: the text of the file name strictly after
its final `'.'`. -/
def afterLastDot (name : String) : Option String :=
  match lastDotPos name.toList with
  | some i => some (String.mk (name.toList.drop (i + 1)))
  | none => none

/-! ### Order lemmas for the Python tuple comparison -/

theorem itemLt_trans {a b c : Item} (h1 : itemLt a b) (h2 : itemLt b c) :
    itemLt a c := by
  rcases h1 with h1 | ⟨e1, s1⟩ <;> rcases h2 with h2 | ⟨e2, s2⟩
  · exact Or.inl (lt_trans h1 h2)
  · exact Or.inl (e2 ▸ h1)
  · exact Or.inl (e1 ▸ h2)
  · exact Or.inr ⟨e1.trans e2, lt_trans s1 s2⟩

theorem itemLt_irrefl (a : Item) : ¬ itemLt a a := by
  rintro (h | ⟨_, h⟩) <;> exact lt_irrefl _ h

theorem itemLt_asymm {a b : Item} (h : itemLt a b) : ¬ itemLt b a :=
  fun h2 => itemLt_irrefl a (itemLt_trans h h2)

theorem itemLt_trichotomy (a b : Item) : itemLt a b ∨ a = b ∨ itemLt b a := by
  rcases lt_trichotomy a.1 b.1 with h | h | h
  · exact Or.inl (Or.inl h)
  · rcases lt_trichotomy a.2 b.2 with h2 | h2 | h2
    · exact Or.inl (Or.inr ⟨h, h2⟩)
    · exact Or.inr (Or.inl (Prod.ext h h2))
    · exact Or.inr (Or.inr (Or.inr ⟨h.symm, h2⟩))
  · exact Or.inr (Or.inr (Or.inl h))

theorem ile_refl (a : Item) : ile a a := itemLt_irrefl a

theorem ile_of_lt {a b : Item} (h : itemLt a b) : ile a b := itemLt_asymm h

theorem ile_trans {a b c : Item} (h1 : ile a b) (h2 : ile b c) : ile a c := by
  intro hca
  rcases itemLt_trichotomy a b with h | h | h
  · exact h2 (itemLt_trans hca h)
  · exact h2 (h ▸ hca)
  · exact h1 h

theorem fst_le_of_ile {a b : Item} (h : ile a b) : a.1 ≤ b.1 := by
  by_contra hgt
  exact h (Or.inl (by omega))

/-! ### Indexing and `List.set` lemmas -/

theorem nthI_set_self : ∀ (l : List Item) (i : Nat) (x : Item),
    i < l.length → nthI (l.set i x) i = x
  | _ :: _, 0, _, _ => rfl
  | _ :: t, i + 1, x, h =>
      nthI_set_self t i x (by simpa using Nat.lt_of_succ_lt_succ h)
  | [], i, x, h => by simp at h

theorem nthI_set_ne : ∀ (l : List Item) (i j : Nat) (x : Item),
    i ≠ j → nthI (l.set i x) j = nthI l j
  | [], _, _, _, _ => rfl
  | _ :: _, 0, 0, _, h => absurd rfl h
  | _ :: _, 0, _ + 1, _, _ => rfl
  | _ :: _, _ + 1, 0, _, _ => rfl
  | _ :: t, i + 1, j + 1, x, h =>
      nthI_set_ne t i j x (fun e => h (by omega))

theorem nthI_append_left : ∀ (l l2 : List Item) (i : Nat),
    i < l.length → nthI (l ++ l2) i = nthI l i
  | _ :: _, _, 0, _ => rfl
  | a :: t, l2, i + 1, h =>
      nthI_append_left t l2 i (by simpa using Nat.lt_of_succ_lt_succ h)
  | [], _, i, h => by simp at h

theorem nthI_append_right_self : ∀ (l : List Item) (x : Item),
    nthI (l ++ [x]) l.length = x
  | [], _ => rfl
  | _ :: t, x => nthI_append_right_self t x

/-- Replacing position `i` exchanges the old element for the new one in
the multiset of elements. -/
theorem mset_set : ∀ (l : List Item) (i : Nat) (x : Item), i < l.length →
    (l.set i x : Multiset Item) + {nthI l i} = (l : Multiset Item) + {x}
  | a :: t, 0, x, _ => by
      show ((x :: t : List Item) : Multiset Item) + {a} =
        ((a :: t : List Item) : Multiset Item) + {x}
      rw [← Multiset.cons_coe, ← Multiset.cons_coe, ← Multiset.singleton_add,
        ← Multiset.singleton_add]
      abel
  | a :: t, i + 1, x, h => by
      show ((a :: t.set i x : List Item) : Multiset Item) + {nthI t i} =
        ((a :: t : List Item) : Multiset Item) + {x}
      rw [← Multiset.cons_coe, ← Multiset.cons_coe, ← Multiset.singleton_add,
        ← Multiset.singleton_add, add_assoc, add_assoc,
        mset_set t i x (by simpa using Nat.lt_of_succ_lt_succ h)]
  | [], i, x, h => by simp at h

/-! ### `_siftdown` correctness -/

theorem par_lt {i : Nat} (h : 0 < i) : par i < i := by
  unfold par; omega

theorem par_le (i : Nat) : par i ≤ i := by
  unfold par; omega

theorem siftdown_length (heap : List Item) (startpos pos : Nat) (x : Item) :
    (siftdown heap startpos pos x).length = heap.length := by
  rw [siftdown]
  split
  · dsimp only
    split
    · rw [siftdown_length, List.length_set]
    · rw [List.length_set]
  · rw [List.length_set]
termination_by pos
decreasing_by omega

theorem siftdown_mset (heap : List Item) (startpos pos : Nat) (x : Item)
    (hpos : pos < heap.length) :
    (siftdown heap startpos pos x : Multiset Item) + {nthI heap pos} =
      (heap : Multiset Item) + {x} := by
  rw [siftdown]
  split
  · dsimp only
    split
    · have hplt : (pos - 1) / 2 < pos := by omega
      have hpar : (pos - 1) / 2 < heap.length := lt_trans hplt hpos
      have hne : pos ≠ (pos - 1) / 2 := by omega
      have ih := siftdown_mset (heap.set pos (nthI heap ((pos - 1) / 2)))
        startpos ((pos - 1) / 2) x (by rw [List.length_set]; exact hpar)
      rw [nthI_set_ne heap pos ((pos - 1) / 2) _ hne] at ih
      have key :
          (siftdown (heap.set pos (nthI heap ((pos - 1) / 2))) startpos
              ((pos - 1) / 2) x : Multiset Item) +
            {nthI heap pos} + {nthI heap ((pos - 1) / 2)} =
          (heap : Multiset Item) + {x} + {nthI heap ((pos - 1) / 2)} := by
        calc (siftdown (heap.set pos (nthI heap ((pos - 1) / 2))) startpos
                ((pos - 1) / 2) x : Multiset Item) +
              {nthI heap pos} + {nthI heap ((pos - 1) / 2)}
            = ((siftdown (heap.set pos (nthI heap ((pos - 1) / 2))) startpos
                ((pos - 1) / 2) x : Multiset Item) +
              {nthI heap ((pos - 1) / 2)}) + {nthI heap pos} := by abel
          _ = ((heap.set pos (nthI heap ((pos - 1) / 2)) : Multiset Item) +
              {x}) + {nthI heap pos} := by rw [ih]
          _ = ((heap.set pos (nthI heap ((pos - 1) / 2)) : Multiset Item) +
              {nthI heap pos}) + {x} := by abel
          _ = ((heap : Multiset Item) + {nthI heap ((pos - 1) / 2)}) + {x} := by
              rw [mset_set heap pos _ hpos]
          _ = (heap : Multiset Item) + {x} + {nthI heap ((pos - 1) / 2)} := by
              abel
      exact add_right_cancel key
    · exact mset_set heap pos x hpos
  · exact mset_set heap pos x hpos
termination_by pos
decreasing_by omega

theorem siftdown_heapInv (heap : List Item) (pos : Nat) (x : Item)
    (hpos : pos < heap.length)
    (hb : ∀ i, 0 < i → i < heap.length → i ≠ pos →
      ile (nthI heap (par i)) (nthI heap i))
    (hc : ∀ i, 0 < i → i < heap.length → par i = pos → ile x (nthI heap i))
    (hd : ∀ i, 0 < i → i < heap.length → par i = pos → 0 < pos →
      ile (nthI heap (par pos)) (nthI heap i)) :
    heapInv (siftdown heap 0 pos x) := by
  rw [siftdown]
  split
  case isTrue hpos0 =>
    dsimp only
    have hpp_lt : (pos - 1) / 2 < pos := by omega
    have hpp_len : (pos - 1) / 2 < heap.length := lt_trans hpp_lt hpos
    have hpp_ne : pos ≠ (pos - 1) / 2 := by omega
    have hpar_pos : par pos = (pos - 1) / 2 := rfl
    split
    case isTrue hlt =>
      apply siftdown_heapInv (heap.set pos (nthI heap ((pos - 1) / 2)))
        ((pos - 1) / 2) x (by rw [List.length_set]; exact hpp_len)
      · -- hb for the new configuration
        intro i hi0 hilen hine
        rw [List.length_set] at hilen
        by_cases hipos : i = pos
        · subst hipos
          rw [hpar_pos, nthI_set_ne heap i ((i - 1) / 2) _ hpp_ne,
            nthI_set_self heap i _ hpos]
          exact ile_refl _
        · have hchild : par i = pos ∨ par i ≠ pos := em _
          rcases hchild with hpi | hpi
          · rw [hpi, nthI_set_self heap pos _ hpos,
              nthI_set_ne heap pos i _ (fun e => hipos e.symm)]
            exact hd i hi0 hilen hpi hpos0
          · rw [nthI_set_ne heap pos (par i) _ (fun e => hpi e.symm),
              nthI_set_ne heap pos i _ (fun e => hipos e.symm)]
            exact hb i hi0 hilen hipos
      · -- hc for the new configuration
        intro i hi0 hilen hpi
        rw [List.length_set] at hilen
        by_cases hipos : i = pos
        · subst hipos
          rw [nthI_set_self heap i _ hpos]
          exact ile_of_lt hlt
        · rw [nthI_set_ne heap pos i _ (fun e => hipos e.symm)]
          exact ile_trans (ile_of_lt hlt)
            (hpi ▸ hb i hi0 hilen hipos)
      · -- hd for the new configuration
        intro i hi0 hilen hpi hpp0
        rw [List.length_set] at hilen
        have hppp_ne : par ((pos - 1) / 2) ≠ pos := by
          have := par_le ((pos - 1) / 2)
          omega
        rw [nthI_set_ne heap pos (par ((pos - 1) / 2)) _
          (fun e => hppp_ne e.symm)]
        have hroot : ile (nthI heap (par ((pos - 1) / 2)))
            (nthI heap ((pos - 1) / 2)) :=
          hb ((pos - 1) / 2) hpp0 hpp_len (fun e => hpp_ne e.symm)
        by_cases hipos : i = pos
        · subst hipos
          rw [nthI_set_self heap i _ hpos]
          exact hroot
        · rw [nthI_set_ne heap pos i _ (fun e => hipos e.symm)]
          exact ile_trans hroot (hpi ▸ hb i hi0 hilen hipos)
    case isFalse hnlt =>
      intro i hi0 hilen
      rw [List.length_set] at hilen
      by_cases hipos : i = pos
      · subst hipos
        rw [hpar_pos, nthI_set_ne heap i ((i - 1) / 2) _ hpp_ne,
          nthI_set_self heap i _ hpos]
        exact hnlt
      · by_cases hpi : par i = pos
        · rw [hpi, nthI_set_self heap pos _ hpos,
            nthI_set_ne heap pos i _ (fun e => hipos e.symm)]
          exact hc i hi0 hilen hpi
        · rw [nthI_set_ne heap pos (par i) _ (fun e => hpi e.symm),
            nthI_set_ne heap pos i _ (fun e => hipos e.symm)]
          exact hb i hi0 hilen hipos
  case isFalse hnpos =>
    have hpos0 : pos = 0 := by omega
    subst hpos0
    intro i hi0 hilen
    rw [List.length_set] at hilen
    have hine : i ≠ 0 := by omega
    by_cases hpi : par i = 0
    · rw [hpi, nthI_set_self heap 0 _ hpos, nthI_set_ne heap 0 i _
        (fun e => hine e.symm)]
      exact hc i hi0 hilen hpi
    · rw [nthI_set_ne heap 0 (par i) _ (fun e => hpi e.symm),
        nthI_set_ne heap 0 i _ (fun e => hine e.symm)]
      exact hb i hi0 hilen hine
termination_by pos
decreasing_by omega

/-! ### `_siftup` correctness -/

theorem siftupAux_length (heap : List Item) (endpos startpos pos : Nat)
    (x : Item) : (siftupAux heap endpos startpos pos x).length = heap.length := by
  rw [siftupAux]
  split
  · dsimp only
    rw [siftupAux_length, List.length_set]
  · rw [siftdown_length, List.length_set]
termination_by endpos - pos
decreasing_by split <;> omega

theorem siftupAux_mset (heap : List Item) (startpos pos : Nat) (x : Item)
    (hpos : pos < heap.length) :
    (siftupAux heap heap.length startpos pos x : Multiset Item) +
        {nthI heap pos} = (heap : Multiset Item) + {x} := by
  rw [siftupAux]
  split
  case isTrue hch =>
    dsimp only
    have hbranch : ∀ c2, pos < c2 → c2 < heap.length →
        (siftupAux (heap.set pos (nthI heap c2)) heap.length startpos c2 x :
            Multiset Item) + {nthI heap pos} =
          (heap : Multiset Item) + {x} := by
      intro c2 hgt hlen
      have hlen2 : (heap.set pos (nthI heap c2)).length = heap.length :=
        List.length_set heap pos _
      have ih := siftupAux_mset (heap.set pos (nthI heap c2)) startpos c2 x
        (by rw [hlen2]; exact hlen)
      rw [hlen2] at ih
      rw [nthI_set_ne heap pos c2 _ (by omega)] at ih
      have key :
          (siftupAux (heap.set pos (nthI heap c2)) heap.length startpos c2 x :
              Multiset Item) + {nthI heap pos} + {nthI heap c2} =
          (heap : Multiset Item) + {x} + {nthI heap c2} := by
        calc (siftupAux (heap.set pos (nthI heap c2)) heap.length startpos c2 x :
                Multiset Item) + {nthI heap pos} + {nthI heap c2}
            = ((siftupAux (heap.set pos (nthI heap c2)) heap.length startpos c2 x :
                Multiset Item) + {nthI heap c2}) + {nthI heap pos} := by abel
          _ = ((heap.set pos (nthI heap c2) : Multiset Item) + {x}) +
              {nthI heap pos} := by rw [ih]
          _ = ((heap.set pos (nthI heap c2) : Multiset Item) +
              {nthI heap pos}) + {x} := by abel
          _ = ((heap : Multiset Item) + {nthI heap c2}) + {x} := by
              rw [mset_set heap pos _ hpos]
          _ = (heap : Multiset Item) + {x} + {nthI heap c2} := by abel
      exact add_right_cancel key
    split
    case isTrue hcase => exact hbranch (2 * pos + 1 + 1) (by omega) hcase.1
    case isFalse hcase => exact hbranch (2 * pos + 1) (by omega) hch
  case isFalse hch =>
    have h1 := siftdown_mset (heap.set pos x) startpos pos x
      (by rw [List.length_set]; exact hpos)
    rw [nthI_set_self heap pos x hpos] at h1
    have h2 : (siftdown (heap.set pos x) startpos pos x : Multiset Item) =
        (heap.set pos x : Multiset Item) := add_right_cancel h1
    rw [h2]
    exact mset_set heap pos x hpos
termination_by heap.length - pos
decreasing_by all_goals omega

theorem step_hsi (heap : List Item) (pos c2 : Nat)
    (hpos : pos < heap.length) (hgt : pos < c2) (hc2len : c2 < heap.length)
    (hpc2 : par c2 = pos)
    (hmin : ∀ j, 0 < j → j < heap.length → par j = pos →
      ile (nthI heap c2) (nthI heap j))
    (hsi : ∀ i, 0 < i → i < heap.length → par i ≠ pos →
      ile (nthI heap (par i)) (nthI heap i))
    (hsd : ∀ i, 0 < i → i < heap.length → par i = pos → 0 < pos →
      ile (nthI heap (par pos)) (nthI heap i)) :
    ∀ i, 0 < i → i < heap.length → par i ≠ c2 →
      ile (nthI (heap.set pos (nthI heap c2)) (par i))
        (nthI (heap.set pos (nthI heap c2)) i) := by
  intro i hi0 hilen hic2
  by_cases hipos : i = pos
  · subst hipos
    have hpar_ne : par i ≠ i := by have := par_lt hi0; omega
    rw [nthI_set_ne heap i (par i) _ (fun e => hpar_ne e.symm),
      nthI_set_self heap i _ hpos]
    exact hsd c2 (by omega) hc2len hpc2 hi0
  · by_cases hpi : par i = pos
    · rw [hpi, nthI_set_self heap pos _ hpos,
        nthI_set_ne heap pos i _ (fun e => hipos e.symm)]
      exact hmin i hi0 hilen hpi
    · rw [nthI_set_ne heap pos (par i) _ (fun e => hpi e.symm),
        nthI_set_ne heap pos i _ (fun e => hipos e.symm)]
      exact hsi i hi0 hilen hpi

theorem step_hsd (heap : List Item) (pos c2 : Nat)
    (hpos : pos < heap.length) (hgt : pos < c2) (hc2len : c2 < heap.length)
    (hpc2 : par c2 = pos)
    (hsi : ∀ i, 0 < i → i < heap.length → par i ≠ pos →
      ile (nthI heap (par i)) (nthI heap i)) :
    ∀ i, 0 < i → i < heap.length → par i = c2 →
      0 < c2 →
      ile (nthI (heap.set pos (nthI heap c2)) (par c2))
        (nthI (heap.set pos (nthI heap c2)) i) := by
  intro i hi0 hilen hpi _
  have hic2 : c2 < i := by
    have : par i < i := par_lt hi0
    omega
  have hipos : i ≠ pos := by omega
  rw [hpc2, nthI_set_self heap pos _ hpos,
    nthI_set_ne heap pos i _ (fun e => hipos e.symm)]
  have hstep := hsi i hi0 hilen (by rw [hpi]; omega)
  rw [hpi] at hstep
  exact hstep

theorem siftupAux_heapInv (heap : List Item) (pos : Nat) (x : Item)
    (hpos : pos < heap.length)
    (hsi : ∀ i, 0 < i → i < heap.length → par i ≠ pos →
      ile (nthI heap (par i)) (nthI heap i))
    (hsd : ∀ i, 0 < i → i < heap.length → par i = pos → 0 < pos →
      ile (nthI heap (par pos)) (nthI heap i)) :
    heapInv (siftupAux heap heap.length 0 pos x) := by
  rw [siftupAux]
  split
  case isTrue hch =>
    dsimp only
    have hbranch : ∀ c2, pos < c2 → c2 < heap.length → par c2 = pos →
        (∀ j, 0 < j → j < heap.length → par j = pos →
          ile (nthI heap c2) (nthI heap j)) →
        heapInv (siftupAux (heap.set pos (nthI heap c2)) heap.length 0 c2 x) := by
      intro c2 hgt hlen hpc2 hmin
      have hlen2 : (heap.set pos (nthI heap c2)).length = heap.length :=
        List.length_set heap pos _
      have ih := siftupAux_heapInv (heap.set pos (nthI heap c2)) c2 x
        (by rw [hlen2]; exact hlen)
        (by rw [hlen2]
            exact step_hsi heap pos c2 hpos hgt hlen hpc2 hmin hsi hsd)
        (by rw [hlen2]
            exact step_hsd heap pos c2 hpos hgt hlen hpc2 hsi)
      rw [hlen2] at ih
      exact ih
    have hchild_par : ∀ c2, c2 = 2 * pos + 1 ∨ c2 = 2 * pos + 2 →
        par c2 = pos := by
      intro c2 hc2; unfold par; omega
    split
    case isTrue hcase =>
      apply hbranch (2 * pos + 1 + 1) (by omega) hcase.1
        (hchild_par _ (by omega))
      intro j hj0 hjlen hpj
      have : j = 2 * pos + 1 ∨ j = 2 * pos + 2 := by
        unfold par at hpj; omega
      rcases this with hj | hj
      · subst hj; exact hcase.2
      · subst hj; exact ile_refl _
    case isFalse hcase =>
      apply hbranch (2 * pos + 1) (by omega) hch (hchild_par _ (by omega))
      intro j hj0 hjlen hpj
      have : j = 2 * pos + 1 ∨ j = 2 * pos + 2 := by
        unfold par at hpj; omega
      rcases this with hj | hj
      · subst hj; exact ile_refl _
      · subst hj
        have hr : 2 * pos + 1 + 1 < heap.length := hjlen
        have hlt : itemLt (nthI heap (2 * pos + 1))
            (nthI heap (2 * pos + 1 + 1)) := by
          by_contra hn
          exact hcase ⟨hr, hn⟩
        exact ile_of_lt hlt
  case isFalse hch =>
    apply siftdown_heapInv (heap.set pos x) pos x
      (by rw [List.length_set]; exact hpos)
    · intro i hi0 hilen hine
      rw [List.length_set] at hilen
      have hpi : par i ≠ pos := by
        intro hpi
        have : 2 * pos + 1 ≤ i := by unfold par at hpi; omega
        omega
      rw [nthI_set_ne heap pos (par i) _ (fun e => hpi e.symm),
        nthI_set_ne heap pos i _ (fun e => hine e.symm)]
      exact hsi i hi0 hilen hpi
    · intro i hi0 hilen hpi
      exfalso
      rw [List.length_set] at hilen
      have : 2 * pos + 1 ≤ i := by unfold par at hpi; omega
      omega
    · intro i hi0 hilen hpi _
      exfalso
      rw [List.length_set] at hilen
      have : 2 * pos + 1 ≤ i := by unfold par at hpi; omega
      omega
termination_by heap.length - pos
decreasing_by all_goals omega

/-! ### `heappush` / `heappushpop` correctness -/

theorem heappush_length (h : List Item) (x : Item) :
    (heappush h x).length = h.length + 1 := by
  unfold heappush
  rw [siftdown_length]
  simp

theorem heappush_mset (h : List Item) (x : Item) :
    (heappush h x : Multiset Item) = (h : Multiset Item) + {x} := by
  unfold heappush
  have hlen : h.length < (h ++ [x]).length := by simp
  have hm := siftdown_mset (h ++ [x]) 0 h.length x hlen
  rw [nthI_append_right_self h x] at hm
  have : ((h ++ [x] : List Item) : Multiset Item) = (h : Multiset Item) + {x} := by
    rw [← Multiset.coe_singleton, ← Multiset.coe_add]
  rw [this] at hm
  exact add_right_cancel hm

theorem heappush_heapInv (h : List Item) (x : Item) (hinv : heapInv h) :
    heapInv (heappush h x) := by
  unfold heappush
  apply siftdown_heapInv (h ++ [x]) h.length x (by simp)
  · intro i hi0 hilen hine
    have hilt : i < h.length := by simp at hilen; omega
    have hpar : par i < h.length := lt_trans (par_lt hi0) hilt
    rw [nthI_append_left h [x] i hilt, nthI_append_left h [x] (par i) hpar]
    exact hinv i hi0 hilt
  · intro i hi0 hilen hpi
    exfalso
    simp at hilen
    have : 2 * h.length + 1 ≤ i := by unfold par at hpi; omega
    omega
  · intro i hi0 hilen hpi _
    exfalso
    simp at hilen
    have : 2 * h.length + 1 ≤ i := by unfold par at hpi; omega
    omega

theorem heappushpop_of_not_lt (h : List Item) (x : Item) (h0 : Item)
    (t : List Item) (he : h = h0 :: t) (hnlt : ¬ itemLt h0 x) :
    heappushpop h x = h := by
  subst he
  unfold heappushpop
  simp [hnlt]

theorem heappushpop_length (h : List Item) (x : Item) :
    (heappushpop h x).length = h.length := by
  unfold heappushpop
  match h with
  | [] => rfl
  | h0 :: t =>
      dsimp only
      split
      · unfold siftup
        rw [siftupAux_length, List.length_set]
      · rfl

theorem heappushpop_mset_of_lt (h : List Item) (x : Item) (h0 : Item)
    (t : List Item) (he : h = h0 :: t) (hlt : itemLt h0 x) :
    (heappushpop h x : Multiset Item) = ((x :: t : List Item) : Multiset Item) := by
  subst he
  unfold heappushpop
  dsimp only
  rw [if_pos hlt]
  unfold siftup
  have hset : (h0 :: t : List Item).set 0 x = x :: t := rfl
  rw [hset]
  have hpos : 0 < (x :: t : List Item).length := by simp
  have hm := siftupAux_mset (x :: t) 0 0 (nthI (x :: t) 0) hpos
  have hn : nthI (x :: t : List Item) 0 = x := rfl
  rw [hn] at hm
  exact add_right_cancel hm

theorem heappushpop_heapInv (h : List Item) (x : Item) (hinv : heapInv h) :
    heapInv (heappushpop h x) := by
  unfold heappushpop
  match h with
  | [] => intro i hi0 hilen; simp at hilen
  | h0 :: t =>
      dsimp only
      split
      case isTrue hlt =>
        unfold siftup
        have hset : (h0 :: t : List Item).set 0 x = x :: t := rfl
        rw [hset]
        have hlen : (x :: t : List Item).length = (h0 :: t : List Item).length := by
          simp
        apply siftupAux_heapInv (x :: t) 0 (nthI (x :: t) 0) (by simp)
        · intro i hi0 hilen hpi
          have hpar0 : 0 < par i ∨ par i = 0 := by omega
          have hx : nthI (x :: t : List Item) i = nthI (h0 :: t : List Item) i := by
            cases i with
            | zero => omega
            | succ n => rfl
          have hy : nthI (x :: t : List Item) (par i) =
              nthI (h0 :: t : List Item) (par i) := by
            rcases hpar0 with hp | hp
            · cases hpar : par i with
              | zero => omega
              | succ n => rfl
            · exact absurd hp hpi
          rw [hx, hy]
          exact hinv i hi0 (by rw [← hlen]; exact hilen)
        · intro i _ _ _ hp0
          exact absurd rfl (Nat.ne_of_gt hp0)
      case isFalse hnlt =>
        exact hinv

/-- In a valid heap the root is a lower bound for every element. -/
theorem heapInv_root_min (h : List Item) (hinv : heapInv h) :
    ∀ j, j < h.length → ile (nthI h 0) (nthI h j) := by
  intro j
  induction j using Nat.strong_induction_on with
  | _ j ih =>
      intro hjlen
      cases Nat.eq_zero_or_pos j with
      | inl hj0 => subst hj0; exact ile_refl _
      | inr hj0 =>
          have hpar : par j < j := par_lt hj0
          exact ile_trans (ih (par j) hpar (lt_trans hpar hjlen))
            (hinv j hj0 hjlen)

/-- Root lower bound, phrased for list membership. -/
theorem heapInv_root_min_mem (h : List Item) (hinv : heapInv h) (y : Item)
    (hy : y ∈ h) : ile (nthI h 0) y := by
  rcases List.mem_iff_get.mp hy with ⟨⟨j, hj⟩, rfl⟩
  have : h.get ⟨j, hj⟩ = nthI h j := by
    unfold nthI
    rw [List.getD_eq_getElem?_getD, List.getElem?_eq_getElem hj]
    rfl
  rw [this]
  exact heapInv_root_min h hinv j hj

/-! ### The bounded top-K invariant -/

theorem topInv_nil (K : Nat) : TopInv K [] [] := by
  refine ⟨fun i hi0 hilen => by simp at hilen, by simp, 0, by simp, ?_⟩
  intro r hr
  simp at hr

theorem topInv_step (K : Nat) (seen h : List Item) (x : Item)
    (hI : TopInv K seen h) : TopInv K (seen ++ [x]) (topStep K h x) := by
  obtain ⟨hinv, hlen, rest, hseen, hcond⟩ := hI
  have hcards : seen.length = h.length + Multiset.card rest := by
    have := congrArg Multiset.card hseen
    simpa [Multiset.coe_card] using this
  have hseenx : ((seen ++ [x] : List Item) : Multiset Item) =
      (seen : Multiset Item) + {x} := by
    rw [← Multiset.coe_singleton, ← Multiset.coe_add]
  unfold topStep
  split
  case isTrue hfull =>
    have hrest0 : rest = 0 := by
      rw [Multiset.eq_zero_iff_forall_not_mem]
      intro a ha
      have : 0 < Multiset.card rest := Multiset.card_pos_iff_exists_mem.mpr ⟨a, ha⟩
      omega
    subst hrest0
    refine ⟨heappush_heapInv h x hinv, ?_, 0, ?_, ?_⟩
    · rw [heappush_length]
      simp only [List.length_append, List.length_singleton]
      omega
    · rw [hseenx, hseen, heappush_mset]
      simp
    · intro r hr
      simp at hr
  case isFalse hfull =>
    have hK : h.length = K := by omega
    have hnK : K ≤ seen.length := by omega
    match h with
    | [] =>
        have hK0 : K = 0 := by simpa using hK.symm
        have hpp : heappushpop [] x = [] := rfl
        rw [hpp]
        refine ⟨hinv, by simp [hK0], rest + {x}, ?_, ?_⟩
        · rw [hseenx, hseen, add_assoc]
        · intro r hr y hy
          simp at hy
    | h0 :: t =>
        by_cases hlt : itemLt h0 x
        · have hmm := heappushpop_mset_of_lt (h0 :: t) x h0 t rfl hlt
          refine ⟨heappushpop_heapInv (h0 :: t) x hinv, ?_, h0 ::ₘ rest, ?_, ?_⟩
          · rw [heappushpop_length]
            simp only [List.length_append, List.length_singleton]
            rw [hK] at hfull ⊢
            omega
          · rw [hseenx, hseen, hmm]
            simp only [← Multiset.cons_coe, ← Multiset.singleton_add]
            abel
          · intro r hr y hy
            have hymem : y ∈ ((x :: t : List Item) : Multiset Item) := by
              rw [← hmm]
              exact Multiset.mem_coe.mpr hy
            have hy2 : y = x ∨ y ∈ t := by
              rw [Multiset.mem_coe] at hymem
              simpa using hymem
            have hroot : ∀ z ∈ (h0 :: t : List Item), ile h0 z := by
              intro z hz
              exact heapInv_root_min_mem (h0 :: t) hinv z hz
            rcases Multiset.mem_cons.mp hr with hr0 | hrr
            · rw [hr0]
              rcases hy2 with rfl | hyt
              · exact ile_of_lt hlt
              · exact hroot y (List.mem_cons_of_mem h0 hyt)
            · rcases hy2 with rfl | hyt
              · exact ile_trans (hcond r hrr h0 (List.mem_cons_self h0 t))
                  (ile_of_lt hlt)
              · exact hcond r hrr y (List.mem_cons_of_mem h0 hyt)
        · rw [heappushpop_of_not_lt (h0 :: t) x h0 t rfl hlt]
          refine ⟨hinv, ?_, x ::ₘ rest, ?_, ?_⟩
          · simp only [List.length_append, List.length_singleton]
            rw [hK] at hfull ⊢
            omega
          · rw [hseenx, hseen]
            simp only [← Multiset.singleton_add]
            abel
          · intro r hr y hy
            rcases Multiset.mem_cons.mp hr with hr0 | hrr
            · subst hr0
              exact ile_trans hlt (heapInv_root_min_mem (h0 :: t) hinv y hy)
            · exact hcond r hrr y hy

theorem topInv_foldl_general (K : Nat) :
    ∀ (items seen h : List Item), TopInv K seen h →
      TopInv K (seen ++ items) (items.foldl (topStep K) h)
  | [], seen, h, hI => by simpa using hI
  | x :: rest, seen, h, hI => by
      have := topInv_foldl_general K rest (seen ++ [x]) (topStep K h x)
        (topInv_step K seen h x hI)
      simpa using this

theorem topInv_foldl (K : Nat) (items : List Item) :
    TopInv K items (items.foldl (topStep K) []) := by
  have := topInv_foldl_general K items [] [] (topInv_nil K)
  simpa using this

/-! ### The stable descending sort -/

theorem insertByDesc_perm {α : Type} (key : α → Nat) (x : α) :
    ∀ l : List α, (insertByDesc key x l).Perm (x :: l)
  | [] => List.Perm.refl _
  | y :: ys => by
      unfold insertByDesc
      split
      · exact List.Perm.refl _
      · exact ((insertByDesc_perm key x ys).cons y).trans
          (List.Perm.swap x y ys)

theorem isortByDesc_perm {α : Type} (key : α → Nat) :
    ∀ l : List α, (isortByDesc key l).Perm l
  | [] => List.Perm.refl _
  | x :: xs => by
      unfold isortByDesc
      exact (insertByDesc_perm key x (isortByDesc key xs)).trans
        ((isortByDesc_perm key xs).cons x)

theorem mem_insertByDesc {α : Type} (key : α → Nat) (x a : α) (l : List α) :
    a ∈ insertByDesc key x l ↔ a = x ∨ a ∈ l := by
  constructor
  · intro h
    have := (insertByDesc_perm key x l).mem_iff.mp h
    simpa using this
  · intro h
    apply (insertByDesc_perm key x l).mem_iff.mpr
    simpa using h

theorem insertByDesc_sorted {α : Type} (key : α → Nat) (x : α) :
    ∀ l : List α, l.Sorted (fun a b => key b ≤ key a) →
      (insertByDesc key x l).Sorted (fun a b => key b ≤ key a)
  | [], _ => List.sorted_singleton x
  | y :: ys, hs => by
      unfold insertByDesc
      rcases List.sorted_cons.mp hs with ⟨hy, hys⟩
      split
      case isTrue hle =>
        refine List.sorted_cons.mpr ⟨?_, hs⟩
        intro b hb
        rcases List.mem_cons.mp hb with rfl | hb2
        · exact hle
        · exact le_trans (hy b hb2) hle
      case isFalse hgt =>
        refine List.sorted_cons.mpr ⟨?_, insertByDesc_sorted key x ys hys⟩
        intro b hb
        rcases (mem_insertByDesc key x b ys).mp hb with rfl | hb2
        · omega
        · exact hy b hb2

theorem isortByDesc_sorted {α : Type} (key : α → Nat) :
    ∀ l : List α, (isortByDesc key l).Sorted (fun a b => key b ≤ key a)
  | [] => List.sorted_nil
  | x :: xs => insertByDesc_sorted key x _ (isortByDesc_sorted key xs)

theorem insertByDesc_filter {α : Type} (key : α → Nat) (x : α) (v : Nat) :
    ∀ l : List α, l.Sorted (fun a b => key b ≤ key a) →
      (insertByDesc key x l).filter (fun a => decide (key a = v)) =
        if key x = v then x :: l.filter (fun a => decide (key a = v))
        else l.filter (fun a => decide (key a = v))
  | [] , _ => by
      unfold insertByDesc
      by_cases hv : key x = v <;> simp [List.filter, hv]
  | y :: ys, hs => by
      unfold insertByDesc
      rcases List.sorted_cons.mp hs with ⟨hy, hys⟩
      split
      case isTrue hle =>
        by_cases hv : key x = v <;> simp [List.filter, hv]
      case isFalse hgt =>
        have ih := insertByDesc_filter key x v ys hys
        simp only [List.filter_cons, ih]
        by_cases hyv : key y = v
        · have hxv : ¬ key x = v := by omega
          simp [hyv, hxv]
        · by_cases hxv : key x = v <;> simp [hyv, hxv]
  termination_by l => l.length

theorem isortByDesc_filter {α : Type} (key : α → Nat) (v : Nat) :
    ∀ l : List α, (isortByDesc key l).filter (fun a => decide (key a = v)) =
      l.filter (fun a => decide (key a = v))
  | [] => rfl
  | x :: xs => by
      unfold isortByDesc
      rw [insertByDesc_filter key x v _ (isortByDesc_sorted key xs),
        isortByDesc_filter key v xs]
      by_cases hv : key x = v <;> simp [List.filter, hv]

/-! ### The K largest elements -/

theorem topK_char (K : Nat) (s r l : List Nat) (hperm : l.Perm (s ++ r))
    (hcard : s.length = min K l.length)
    (hdom : ∀ x ∈ r, ∀ y ∈ s, x ≤ y) :
    (((isortByDesc id l).take K : List Nat) : Multiset Nat) =
      (s : Multiset Nat) := by
  haveI : IsAntisymm Nat (fun a b => id b ≤ id a) :=
    ⟨fun a b h1 h2 => le_antisymm h2 h1⟩
  have hs' := isortByDesc_sorted id s
  have hr' := isortByDesc_sorted id r
  have hcross : ∀ x ∈ isortByDesc id s, ∀ y ∈ isortByDesc id r,
      id y ≤ id x := by
    intro x hx y hy
    exact hdom y ((isortByDesc_perm id r).mem_iff.mp hy)
      x ((isortByDesc_perm id s).mem_iff.mp hx)
  have happ : (isortByDesc id s ++ isortByDesc id r).Sorted
      (fun a b => id b ≤ id a) :=
    List.pairwise_append.mpr ⟨hs', hr', hcross⟩
  have hperm2 : (isortByDesc id l).Perm (isortByDesc id s ++ isortByDesc id r) := by
    refine (isortByDesc_perm id l).trans (hperm.trans ?_)
    exact List.Perm.append (isortByDesc_perm id s).symm (isortByDesc_perm id r).symm
  have heq : isortByDesc id l = isortByDesc id s ++ isortByDesc id r :=
    List.eq_of_perm_of_sorted hperm2 (isortByDesc_sorted id l) happ
  have hslen : (isortByDesc id s).length = s.length :=
    (isortByDesc_perm id s).length_eq
  have hllen : l.length = s.length + r.length := by
    rw [hperm.length_eq]
    simp
  rcases le_or_lt K l.length with hKl | hKl
  · have hsK : s.length = K := by omega
    rw [heq, ← hslen.trans hsK, List.take_left]
    exact Multiset.coe_eq_coe.mpr (isortByDesc_perm id s)
  · have hsl : s.length = l.length := by omega
    have hr0 : r = [] := by
      have : r.length = 0 := by omega
      exact List.length_eq_zero.mp this
    subst hr0
    have hr2 : isortByDesc id ([] : List Nat) = [] := rfl
    rw [heq, hr2, List.append_nil,
      List.take_of_length_le (by omega : (isortByDesc id s).length ≤ K)]
    exact Multiset.coe_eq_coe.mpr (isortByDesc_perm id s)

/-! ### Accumulation lemmas -/

theorem foldl_observe_totalFiles (K : Nat) :
    ∀ (stream : List FileRec) (st : ScanState),
      (stream.foldl (observe K) st).totalFiles = st.totalFiles + stream.length
  | [], st => by simp
  | r :: rs, st => by
      simp only [List.foldl_cons, List.length_cons]
      rw [foldl_observe_totalFiles K rs (observe K st r)]
      simp only [observe]
      omega

theorem foldl_observe_totalSize (K : Nat) :
    ∀ (stream : List FileRec) (st : ScanState),
      (stream.foldl (observe K) st).totalSize =
        st.totalSize + (stream.map effSize).sum
  | [], st => by simp
  | r :: rs, st => by
      simp only [List.foldl_cons, List.map_cons, List.sum_cons]
      rw [foldl_observe_totalSize K rs (observe K st r)]
      simp only [observe]
      omega

theorem foldl_observe_processed (K : Nat) :
    ∀ (stream : List FileRec) (st : ScanState),
      (stream.foldl (observe K) st).processed = st.processed + stream.length
  | [], st => by simp
  | r :: rs, st => by
      simp only [List.foldl_cons, List.length_cons]
      rw [foldl_observe_processed K rs (observe K st r)]
      simp only [observe]
      omega

theorem foldl_observe_topHeap (K : Nat) :
    ∀ (stream : List FileRec) (st : ScanState),
      (stream.foldl (observe K) st).topHeap =
        (stream.map (fun r => (effSize r, r.1))).foldl (topStep K) st.topHeap
  | [], st => by simp
  | r :: rs, st => by
      simp only [List.foldl_cons, List.map_cons]
      rw [foldl_observe_topHeap K rs (observe K st r)]
      simp only [observe]

/-! ### Scan-loop characterization -/

theorem scanLoopE_cb_irrelevant (K N : Nat) (f g : Nat → Except String Unit)
    (cancel : Nat → Bool) :
    ∀ (stream : List FileRec) (st : ScanState) (evs : List Nat),
      scanLoopE K N (some f) cancel stream st evs =
        scanLoopE K N (some g) cancel stream st evs
  | [], st, evs => by
      simp only [scanLoopE, callCb]
      cases f st.processed <;> cases g st.processed <;> rfl
  | r :: rs, st, evs => by
      simp only [scanLoopE]
      split
      · rfl
      · split
        · have hf : callCb f (observe K st r).processed = Except.ok () := by
            unfold callCb; cases f (observe K st r).processed <;> rfl
          have hg : callCb g (observe K st r).processed = Except.ok () := by
            unfold callCb; cases g (observe K st r).processed <;> rfl
          rw [hf, hg]
          exact scanLoopE_cb_irrelevant K N f g cancel rs _ _
        · exact scanLoopE_cb_irrelevant K N f g cancel rs _ _

theorem scanLoopE_noCancel_some (K N : Nat) (f : Nat → Except String Unit) :
    ∀ (stream : List FileRec) (st : ScanState) (evs : List Nat),
      scanLoopE K N (some f) neverCancel stream st evs =
        Except.ok (stream.foldl (observe K) st,
          evs ++ (List.range' (st.processed + 1) stream.length).filter
            (fun q => q % N = 0) ++ [st.processed + stream.length], true)
  | [], st, evs => by
      simp only [scanLoopE, callCb]
      cases f st.processed <;> simp
  | r :: rs, st, evs => by
      simp only [scanLoopE, neverCancel, if_neg (by simp : ¬ (false = true))]
      have hproc : (observe K st r).processed = st.processed + 1 := rfl
      split
      case isTrue hdiv =>
        have hf : callCb f (observe K st r).processed = Except.ok () := by
          unfold callCb; cases f (observe K st r).processed <;> rfl
        rw [hf, scanLoopE_noCancel_some K N f rs (observe K st r)
          (evs ++ [(observe K st r).processed])]
        rw [hproc] at hdiv ⊢
        have h3 : st.processed + 1 + rs.length = st.processed + (rs.length + 1) := by
          omega
        simp only [List.length_cons, List.foldl_cons, List.range'_succ,
          List.filter_cons, decide_eq_true_eq, if_pos hdiv, List.append_assoc,
          List.cons_append, List.nil_append, h3]
      case isFalse hdiv =>
        rw [scanLoopE_noCancel_some K N f rs (observe K st r) evs]
        rw [hproc] at hdiv ⊢
        have h3 : st.processed + 1 + rs.length = st.processed + (rs.length + 1) := by
          omega
        simp only [List.length_cons, List.foldl_cons, List.range'_succ,
          List.filter_cons, decide_eq_true_eq, if_neg hdiv, List.append_assoc,
          List.cons_append, List.nil_append, h3]

theorem scanLoopE_noCancel_none (K N : Nat) :
    ∀ (stream : List FileRec) (st : ScanState) (evs : List Nat),
      scanLoopE K N none neverCancel stream st evs =
        Except.ok (stream.foldl (observe K) st, evs, true)
  | [], st, evs => by simp [scanLoopE]
  | r :: rs, st, evs => by
      simp only [scanLoopE, neverCancel, if_neg (by simp : ¬ (false = true))]
      exact scanLoopE_noCancel_none K N rs (observe K st r) evs

theorem scanLoopE_cancel_bound (K N : Nat)
    (cb : Option (Nat → Except String Unit)) (cancel : Nat → Bool)
    (hmono : ∀ a b, a ≤ b → cancel a = true → cancel b = true) (i : Nat)
    (hset : cancel (i + 1) = true) :
    ∀ (stream : List FileRec) (st : ScanState) (evs : List Nat),
      ∃ m evs2 done, m ≤ i - st.processed ∧ m ≤ stream.length ∧
        scanLoopE K N cb cancel stream st evs =
          Except.ok ((stream.take m).foldl (observe K) st, evs2, done)
  | [], st, evs => by
      refine ⟨0, ?_⟩
      match cb with
      | none => exact ⟨evs, true, by omega, by omega, rfl⟩
      | some f =>
          refine ⟨evs ++ [st.processed], true, by omega, by omega, ?_⟩
          simp only [scanLoopE]
          have hf : callCb f st.processed = Except.ok () := by
            unfold callCb; cases f st.processed <;> rfl
          rw [hf]
          rfl
  | r :: rs, st, evs => by
      by_cases hcan : cancel (st.processed + 1) = true
      · refine ⟨0, evs, false, by omega, by omega, ?_⟩
        simp only [scanLoopE, hcan]
        rfl
      · have hlt : st.processed < i := by
          by_contra hge
          exact hcan (hmono (i + 1) (st.processed + 1) (by omega) hset)
        have hproc : (observe K st r).processed = st.processed + 1 := rfl
        have ihapply : ∀ evs3 : List Nat,
            ∃ m evs2 done, m ≤ i - (st.processed + 1) ∧ m ≤ rs.length ∧
              scanLoopE K N cb cancel rs (observe K st r) evs3 =
                Except.ok ((rs.take m).foldl (observe K) (observe K st r),
                  evs2, done) := by
          intro evs3
          have := scanLoopE_cancel_bound K N cb cancel hmono i hset rs
            (observe K st r) evs3
          rw [hproc] at this
          exact this
        have hstep : ∀ m, ((r :: rs).take (m + 1)).foldl (observe K) st =
            (rs.take m).foldl (observe K) (observe K st r) := by
          intro m
          simp [List.take_succ_cons]
        match cb with
        | none =>
            obtain ⟨m, evs2, done, hm1, hm2, heq⟩ := ihapply evs
            refine ⟨m + 1, evs2, done, by omega, by simp; omega, ?_⟩
            simp only [scanLoopE, hcan]
            rw [hstep m]
            exact heq
        | some f =>
            by_cases hdiv : (observe K st r).processed % N = 0
            · obtain ⟨m, evs2, done, hm1, hm2, heq⟩ :=
                ihapply (evs ++ [(observe K st r).processed])
              refine ⟨m + 1, evs2, done, by omega, by simp; omega, ?_⟩
              simp only [scanLoopE, hcan]
              have hf : callCb f (observe K st r).processed = Except.ok () := by
                unfold callCb; cases f (observe K st r).processed <;> rfl
              rw [if_pos hdiv, hf, hstep m]
              exact heq
            · obtain ⟨m, evs2, done, hm1, hm2, heq⟩ := ihapply evs
              refine ⟨m + 1, evs2, done, by omega, by simp; omega, ?_⟩
              simp only [scanLoopE, hcan]
              rw [if_neg hdiv, hstep m]
              exact heq

/-! ### Whole-scan characterization -/

theorem collect_noCancel_some (stream : List FileRec)
    (f : Nat → Except String Unit) (N K : Nat) :
    collect_folder_stats_streaming stream (some f) N K neverCancel =
      Except.ok (mkResult (accumulate K stream),
        progressEvents N stream.length, true) := by
  unfold collect_folder_stats_streaming
  rw [scanLoopE_noCancel_some K N f stream initState []]
  have hp : initState.processed = 0 := rfl
  simp [hp, accumulate, progressEvents]

theorem collect_noCancel_none (stream : List FileRec) (N K : Nat) :
    collect_folder_stats_streaming stream none N K neverCancel =
      Except.ok (mkResult (accumulate K stream), [], true) := by
  unfold collect_folder_stats_streaming
  rw [scanLoopE_noCancel_none K N stream initState []]
  rfl

/-- The multiset of sizes held by the final bounded top-K structure is
exactly the K largest input sizes, and its length is `min K n`. -/
theorem topHeap_k_largest (K : Nat) (items : List Item) :
    (((items.foldl (topStep K) []).map Prod.fst : List Nat) : Multiset Nat) =
        kLargestSizes K (items.map Prod.fst) ∧
      (items.foldl (topStep K) []).length = min K items.length := by
  obtain ⟨hinv, hlen, rest, hseen, hcond⟩ := topInv_foldl K items
  set h := items.foldl (topStep K) [] with hh
  have hperm : items.Perm (h ++ rest.toList) := by
    rw [← Multiset.coe_eq_coe, ← Multiset.coe_add, Multiset.coe_toList]
    exact hseen
  have hpermf : (items.map Prod.fst).Perm
      (h.map Prod.fst ++ (rest.toList.map Prod.fst)) := by
    have := hperm.map Prod.fst
    rwa [List.map_append] at this
  have hcard : (h.map Prod.fst).length = min K (items.map Prod.fst).length := by
    rw [List.length_map, List.length_map]
    exact hlen
  have hdom : ∀ x ∈ rest.toList.map Prod.fst, ∀ y ∈ h.map Prod.fst, x ≤ y := by
    intro x hx y hy
    obtain ⟨a, ha, rfl⟩ := List.mem_map.mp hx
    obtain ⟨b, hb, rfl⟩ := List.mem_map.mp hy
    exact fst_le_of_ile (hcond a (Multiset.mem_toList.mp ha) b hb)
  have := topK_char K (h.map Prod.fst) (rest.toList.map Prod.fst)
    (items.map Prod.fst) hpermf hcard hdom
  exact ⟨this.symm ▸ rfl, hlen⟩

/-! ### Claim theorems -/

/-- C1: for every K ≥ 1 and every finite stream of (path, size) file
observations fed to the scan, the top-files list returned by
`collect_folder_stats_streaming` without cancellation contains, as a
multiset of sizes, exactly the K largest sizes of the full input, and its
length equals min(K, number of files seen). -/
theorem c1_top_k_largest (K N : Nat) (cb : Option (Nat → Except String Unit))
    (stream : List FileRec) (hK : 1 ≤ K) :
    (∃ evs, collect_folder_stats_streaming stream cb N K neverCancel =
      Except.ok (mkResult (accumulate K stream), evs, true)) ∧
    (((heap_to_list ((accumulate K stream).topHeap)).map Prod.fst : List Nat) :
        Multiset Nat) = kLargestSizes K (stream.map effSize) ∧
    (heap_to_list ((accumulate K stream).topHeap)).length =
      min K stream.length := by
  have hheap : (accumulate K stream).topHeap =
      (stream.map (fun r => (effSize r, r.1))).foldl (topStep K) [] := by
    unfold accumulate
    rw [foldl_observe_topHeap]
    rfl
  have hitems : (stream.map (fun r => (effSize r, r.1))).map Prod.fst =
      stream.map effSize := by
    rw [List.map_map]
    rfl
  obtain ⟨hmult, hlen⟩ :=
    topHeap_k_largest K (stream.map (fun r => (effSize r, r.1)))
  refine ⟨?_, ?_, ?_⟩
  · match cb with
    | none => exact ⟨[], collect_noCancel_none stream N K⟩
    | some f => exact ⟨progressEvents N stream.length,
        collect_noCancel_some stream f N K⟩
  · rw [hheap]
    have hperm : ((heap_to_list ((stream.map (fun r => (effSize r, r.1))).foldl
        (topStep K) [])).map Prod.fst).Perm
        (((stream.map (fun r => (effSize r, r.1))).foldl (topStep K) []).map
          Prod.fst) :=
      (isortByDesc_perm (fun x => x.1) _).map Prod.fst
    rw [Multiset.coe_eq_coe.mpr hperm, hmult, hitems]
  · rw [hheap]
    unfold heap_to_list
    rw [(isortByDesc_perm (fun x : Item => x.1) _).length_eq, hlen,
      List.length_map]

/-- Witness for C1 at a concrete input: K = 2, three files with sizes
5, 9, 7; the top list holds sizes 9 and 7. -/
theorem c1_top_k_largest_witness :
    (1 ≤ 2) ∧
    ((∃ evs, collect_folder_stats_streaming
        [("a", some 5), ("b", some 9), ("c", some 7)] none 200 2 neverCancel =
      Except.ok (mkResult (accumulate 2
        [("a", some 5), ("b", some 9), ("c", some 7)]), evs, true)) ∧
    (((heap_to_list ((accumulate 2
        [("a", some 5), ("b", some 9), ("c", some 7)]).topHeap)).map Prod.fst :
        List Nat) : Multiset Nat) =
      kLargestSizes 2 ([("a", some 5), ("b", some 9), ("c", some 7)].map
        effSize) ∧
    (heap_to_list ((accumulate 2
        [("a", some 5), ("b", some 9), ("c", some 7)]).topHeap)).length =
      min 2 ([("a", some 5), ("b", some 9), ("c", some 7)] :
        List FileRec).length) :=
  ⟨by decide, c1_top_k_largest 2 200 none
    [("a", some 5), ("b", some 9), ("c", some 7)] (by decide)⟩

/-- C2 counterexample: a top-K structure holding K = 1 item `(5, "a")`
observes a new file `(5, "b")` of equal size; the claim says the held set
is left unchanged on ties, but `heappushpop` compares full Python tuples,
`(5, "a") < (5, "b")` holds, and the held pair is replaced. -/
theorem c2_tie_replaces_counterexample :
    topStep 1 [(5, "a")] (5, "b") = [(5, "b")] ∧
      ([(5, "b")] : List Item) ≠ [(5, "a")] := by
  constructor
  · simp [topStep, heappushpop, itemLt, siftup, siftupAux, siftdown, nthI]
    decide
  · decide

/-- C2 (amended): for a full top-K structure (K items held, K ≥ 1) the
currently-smallest held pair is the heap root, and the comparison deciding
replacement is the lexicographic Python tuple order on (size, path): the
structure is left literally unchanged when the new pair is not greater
than the root (in particular always when the new size is strictly
smaller), and when the new pair is strictly greater — which on equal
sizes happens exactly when the new path compares greater — the root is
replaced by the new pair. -/
theorem c2_replacement_rule (K : Nat) (h : List Item) (x : Item)
    (hinv : heapInv h) (hne : h ≠ []) (hlen : h.length = K) :
    (∀ y ∈ h, ile (nthI h 0) y) ∧
    (¬ itemLt (nthI h 0) x → topStep K h x = h) ∧
    (itemLt (nthI h 0) x →
      (topStep K h x : Multiset Item) + {nthI h 0} =
        (h : Multiset Item) + {x}) ∧
    (x.1 < (nthI h 0).1 → topStep K h x = h) := by
  have hts : topStep K h x = heappushpop h x := by
    unfold topStep
    rw [if_neg (by omega)]
  match h, hne with
  | h0 :: t, _ =>
      have h00 : nthI (h0 :: t) 0 = h0 := rfl
      rw [h00, hts]
      refine ⟨fun y hy => heapInv_root_min_mem (h0 :: t) hinv y hy, ?_, ?_, ?_⟩
      · intro hnlt
        exact heappushpop_of_not_lt (h0 :: t) x h0 t rfl hnlt
      · intro hlt
        rw [heappushpop_mset_of_lt (h0 :: t) x h0 t rfl hlt]
        simp only [← Multiset.cons_coe, ← Multiset.singleton_add]
        abel
      · intro hsz
        apply heappushpop_of_not_lt (h0 :: t) x h0 t rfl
        rintro (hl | ⟨he, _⟩)
        · omega
        · omega

/-- Witness for C2 (amended) at the heap `[(5, "a")]` with K = 1 and the
strictly smaller observation `(3, "z")`. -/
theorem c2_replacement_rule_witness :
    (heapInv [(5, "a")] ∧ ([(5, "a")] : List Item) ≠ [] ∧
      ([(5, "a")] : List Item).length = 1) ∧
    ((∀ y ∈ ([(5, "a")] : List Item), ile (nthI [(5, "a")] 0) y) ∧
    (¬ itemLt (nthI [(5, "a")] 0) (3, "z") →
      topStep 1 [(5, "a")] (3, "z") = [(5, "a")]) ∧
    (itemLt (nthI [(5, "a")] 0) (3, "z") →
      (topStep 1 [(5, "a")] (3, "z") : Multiset Item) + {nthI [(5, "a")] 0} =
        (([(5, "a")] : List Item) : Multiset Item) + {(3, "z")}) ∧
    ((3, "z").1 < (nthI [(5, "a")] 0).1 →
      topStep 1 [(5, "a")] (3, "z") = [(5, "a")])) :=
  ⟨⟨fun i hi0 hilen => by simp at hilen; omega, by decide, rfl⟩,
    c2_replacement_rule 1 [(5, "a")] (3, "z")
      (fun i hi0 hilen => by simp at hilen; omega) (by decide) rfl⟩

/-- C3: if the cancellation signal is set from the (i+1)-th pre-file poll
on (i.e. it was set after file i was processed and, being a
`threading.Event`, stays set), then the scan returns normally — no
exception — carrying exactly the statistics accumulated from a prefix of
at most i files, so no file beyond the i-th is ever observed. -/
theorem c3_cancellation_latency (K N : Nat)
    (cb : Option (Nat → Except String Unit)) (cancel : Nat → Bool)
    (stream : List FileRec) (i : Nat)
    (hmono : ∀ a b, a ≤ b → cancel a = true → cancel b = true)
    (hset : cancel (i + 1) = true) :
    ∃ m evs done, m ≤ i ∧ m ≤ stream.length ∧
      collect_folder_stats_streaming stream cb N K cancel =
        Except.ok (mkResult (accumulate K (stream.take m)), evs, done) := by
  obtain ⟨m, evs2, done, hm1, hm2, heq⟩ :=
    scanLoopE_cancel_bound K N cb cancel hmono i hset stream initState []
  refine ⟨m, evs2, done, ?_, hm2, ?_⟩
  · have hp : initState.processed = 0 := rfl
    rw [hp] at hm1
    omega
  · unfold collect_folder_stats_streaming accumulate
    rw [heq]

/-- Witness for C3: three files, the signal set from poll 2 on (i = 1). -/
theorem c3_cancellation_latency_witness :
    ((∀ a b : Nat, a ≤ b → decide (2 ≤ a) = true → decide (2 ≤ b) = true) ∧
      (fun k => decide (2 ≤ k)) (1 + 1) = true) ∧
    (∃ m evs done, m ≤ 1 ∧
      m ≤ ([("a", some 1), ("b", some 2), ("c", some 3)] :
        List FileRec).length ∧
      collect_folder_stats_streaming
          [("a", some 1), ("b", some 2), ("c", some 3)] none 200 25
          (fun k => decide (2 ≤ k)) =
        Except.ok (mkResult (accumulate 25
          ([("a", some 1), ("b", some 2), ("c", some 3)].take m)),
          evs, done)) :=
  ⟨⟨fun a b hab ha => by simp at ha ⊢; omega, by decide⟩,
    c3_cancellation_latency 25 200 none (fun k => decide (2 ≤ k))
      [("a", some 1), ("b", some 2), ("c", some 3)] 1
      (fun a b hab ha => by simp at ha ⊢; omega) (by decide)⟩

/-- The loop always returns `Except.ok` and its state is the fold of a
prefix of the stream — wherever the cancellation poll first fires, if
ever. -/
theorem scanLoopE_always_prefix (K N : Nat)
    (cb : Option (Nat → Except String Unit)) (cancel : Nat → Bool) :
    ∀ (stream : List FileRec) (st : ScanState) (evs : List Nat),
      ∃ m evs2 done, m ≤ stream.length ∧
        scanLoopE K N cb cancel stream st evs =
          Except.ok ((stream.take m).foldl (observe K) st, evs2, done)
  | [], st, evs => by
      refine ⟨0, ?_⟩
      match cb with
      | none => exact ⟨evs, true, by omega, rfl⟩
      | some f =>
          refine ⟨evs ++ [st.processed], true, by omega, ?_⟩
          simp only [scanLoopE]
          have hf : callCb f st.processed = Except.ok () := by
            unfold callCb; cases f st.processed <;> rfl
          rw [hf]
          rfl
  | r :: rs, st, evs => by
      by_cases hcan : cancel (st.processed + 1) = true
      · refine ⟨0, evs, false, by omega, ?_⟩
        simp only [scanLoopE, hcan]
        rfl
      · have hstep : ∀ m, ((r :: rs).take (m + 1)).foldl (observe K) st =
            (rs.take m).foldl (observe K) (observe K st r) := by
          intro m
          simp [List.take_succ_cons]
        match cb with
        | none =>
            obtain ⟨m, evs2, done, hm, heq⟩ :=
              scanLoopE_always_prefix K N none cancel rs (observe K st r) evs
            refine ⟨m + 1, evs2, done, by simp; omega, ?_⟩
            simp only [scanLoopE, hcan]
            rw [hstep m]
            exact heq
        | some f =>
            by_cases hdiv : (observe K st r).processed % N = 0
            · obtain ⟨m, evs2, done, hm, heq⟩ :=
                scanLoopE_always_prefix K N (some f) cancel rs (observe K st r)
                  (evs ++ [(observe K st r).processed])
              refine ⟨m + 1, evs2, done, by simp; omega, ?_⟩
              simp only [scanLoopE, hcan]
              have hf : callCb f (observe K st r).processed = Except.ok () := by
                unfold callCb; cases f (observe K st r).processed <;> rfl
              rw [if_pos hdiv, hf, hstep m]
              exact heq
            · obtain ⟨m, evs2, done, hm, heq⟩ :=
                scanLoopE_always_prefix K N (some f) cancel rs (observe K st r)
                  evs
              refine ⟨m + 1, evs2, done, by simp; omega, ?_⟩
              simp only [scanLoopE, hcan]
              rw [if_neg hdiv, hstep m]
              exact heq

/-- C4 counterexample: a scan of one file cancelled before its first
record returns exactly the same 4-tuple `(0, 0, [], [])` as a completed
scan of an empty stream; the two runs reach different terminal states
(the ghost exit observation is `false` versus `true`) yet their returned
values are equal, so no completion flag can be read off the returned
value. -/
theorem c4_no_flag_counterexample :
    collect_folder_stats_streaming [("a.txt", some 5)] none 200 25
        (fun _ => true) =
      Except.ok ((0, 0, [], []), [], false) ∧
    collect_folder_stats_streaming [] none 200 25 neverCancel =
      Except.ok ((0, 0, [], []), [], true) := by
  constructor <;>
    simp [collect_folder_stats_streaming, scanLoopE, mkResult, initState,
      make_ext_summary, heap_to_list, isortByDesc, neverCancel]

/-- C4 (amended): neither terminal outcome is signalled by a thrown
fault — every scan, cancelled anywhere or not, returns `Except.ok` — and
the returned value is in both cases the bare 4-tuple projected from the
processed prefix, with no completion flag in it (the counterexample
exhibits a cancelled run and a completed run returning equal values). -/
theorem c4_outcomes_no_fault (K N : Nat)
    (cb : Option (Nat → Except String Unit)) (cancel : Nat → Bool)
    (stream : List FileRec) :
    ∃ m evs done, m ≤ stream.length ∧
      collect_folder_stats_streaming stream cb N K cancel =
        Except.ok (mkResult (accumulate K (stream.take m)), evs, done) := by
  obtain ⟨m, evs2, done, hm, heq⟩ :=
    scanLoopE_always_prefix K N cb cancel stream initState []
  refine ⟨m, evs2, done, hm, ?_⟩
  unfold collect_folder_stats_streaming accumulate
  rw [heq]

/-- C9: a progress callback that raises is indistinguishable, for the
scan, from one that never raises: the `try/except: pass` guards make the
whole run — returned statistics, delivered progress events and terminal
state alike — equal to the run with a never-raising callback, and the
run returns normally in either case. -/
theorem c9_callback_exceptions_ignored (K N : Nat) (cancel : Nat → Bool)
    (f : Nat → Except String Unit) (stream : List FileRec) :
    collect_folder_stats_streaming stream (some f) N K cancel =
      collect_folder_stats_streaming stream
        (some (fun _ => Except.ok ())) N K cancel ∧
    ∃ m evs done, m ≤ stream.length ∧
      collect_folder_stats_streaming stream (some f) N K cancel =
        Except.ok (mkResult (accumulate K (stream.take m)), evs, done) := by
  constructor
  · unfold collect_folder_stats_streaming
    rw [scanLoopE_cb_irrelevant K N f (fun _ => Except.ok ()) cancel stream
      initState []]
  · obtain ⟨m, evs2, done, hm, heq⟩ :=
      scanLoopE_always_prefix K N (some f) cancel stream initState []
    refine ⟨m, evs2, done, hm, ?_⟩
    unfold collect_folder_stats_streaming accumulate
    rw [heq]

theorem pairwise_lt_range1 : ∀ (s n : Nat), (List.range' s n).Pairwise (· < ·)
  | _, 0 => List.Pairwise.nil
  | s, n + 1 => by
      rw [List.range'_succ]
      refine List.Pairwise.cons ?_ (pairwise_lt_range1 (s + 1) n)
      intro b hb
      have := List.mem_range'_1.mp hb
      omega

theorem progressEvents_facts (N n : Nat) :
    List.Chain' (· ≤ ·) (progressEvents N n) ∧
    (progressEvents N n).getLast? = some n ∧
    (¬ (N ∣ n ∧ 0 < n) → List.Chain' (· < ·) (progressEvents N n)) := by
  have hmids : ((List.range' 1 n).filter
      (fun q => decide (q % N = 0))).Pairwise (· < ·) :=
    (pairwise_lt_range1 1 n).sublist (List.filter_sublist _)
  have hmem : ∀ x ∈ (List.range' 1 n).filter (fun q => decide (q % N = 0)),
      1 ≤ x ∧ x < 1 + n ∧ x % N = 0 := by
    intro x hx
    obtain ⟨hx1, hx2⟩ := List.mem_filter.mp hx
    obtain ⟨h1, h2⟩ := List.mem_range'_1.mp hx1
    exact ⟨h1, h2, by simpa using hx2⟩
  unfold progressEvents
  refine ⟨?_, List.getLast?_concat _, ?_⟩
  · rw [List.chain'_iff_pairwise]
    refine List.pairwise_append.mpr
      ⟨hmids.imp (fun h => le_of_lt h), List.pairwise_singleton _ _, ?_⟩
    intro x hx y hy
    obtain ⟨_, h2, _⟩ := hmem x hx
    have hyn : y = n := by simpa using hy
    omega
  · intro hnd
    rw [List.chain'_iff_pairwise]
    refine List.pairwise_append.mpr
      ⟨hmids, List.pairwise_singleton _ _, ?_⟩
    intro x hx y hy
    obtain ⟨h1, h2, h3⟩ := hmem x hx
    have hyn : y = n := by simpa using hy
    rw [hyn]
    rcases Nat.lt_or_ge x n with hlt | hge
    · exact hlt
    · exfalso
      have hxn : x = n := by omega
      exact hnd ⟨Nat.dvd_of_mod_eq_zero (hxn ▸ h3), by omega⟩

/-- C5 counterexample: an uncancelled one-file scan with interval N = 1
delivers the processed counts `[1, 1]` — the mandatory final event
repeats the last periodic event — so the delivered sequence is not
strictly increasing even though the final event does equal the total. -/
theorem c5_strict_increase_counterexample :
    collect_folder_stats_streaming [("a", some 1)]
        (some (fun _ => Except.ok ())) 1 25 neverCancel =
      Except.ok ((1, 1, [("<no-ext>", 1, 1)], [(1, "a")]), [1, 1], true) ∧
    ¬ List.Chain' (· < ·) [1, 1] := by
  constructor
  · simp [collect_folder_stats_streaming, scanLoopE, mkResult, initState,
      make_ext_summary, heap_to_list, isortByDesc, observe, callCb,
      neverCancel, effSize, extKey, pySuffix, lastDotPos, bump, lookupD,
      topStep, heappush, siftdown, insertByDesc, nthI]
  · simp

/-- C5 (amended): for every uncancelled scan with progress interval
N ≥ 1 the delivered `filesProcessed` sequence is exactly the multiples of
N up to the total followed by the mandatory final event carrying the
total; it is non-decreasing with the final event equal to the true total,
and it is strictly increasing unless the total is a positive multiple of
N, in which case the final event repeats the last periodic value. -/
theorem c5_progress_monotone (N K : Nat) (f : Nat → Except String Unit)
    (stream : List FileRec) (hN : 1 ≤ N) :
    collect_folder_stats_streaming stream (some f) N K neverCancel =
      Except.ok (mkResult (accumulate K stream),
        progressEvents N stream.length, true) ∧
    List.Chain' (· ≤ ·) (progressEvents N stream.length) ∧
    (progressEvents N stream.length).getLast? = some stream.length ∧
    (¬ (N ∣ stream.length ∧ 0 < stream.length) →
      List.Chain' (· < ·) (progressEvents N stream.length)) := by
  obtain ⟨h1, h2, h3⟩ := progressEvents_facts N stream.length
  exact ⟨collect_noCancel_some stream f N K, h1, h2, h3⟩

/-- Witness for C5 (amended): N = 2, a single file; the only event list
is `[1]`. -/
theorem c5_progress_monotone_witness :
    (1 ≤ 2) ∧
    (collect_folder_stats_streaming [("a", some 1)]
        (some (fun _ => Except.ok ())) 2 25 neverCancel =
      Except.ok (mkResult (accumulate 25 [("a", some 1)]),
        progressEvents 2 ([("a", some 1)] : List FileRec).length, true) ∧
    List.Chain' (· ≤ ·)
      (progressEvents 2 ([("a", some 1)] : List FileRec).length) ∧
    (progressEvents 2 ([("a", some 1)] : List FileRec).length).getLast? =
      some ([("a", some 1)] : List FileRec).length ∧
    (¬ (2 ∣ ([("a", some 1)] : List FileRec).length ∧
        0 < ([("a", some 1)] : List FileRec).length) →
      List.Chain' (· < ·)
        (progressEvents 2 ([("a", some 1)] : List FileRec).length))) :=
  ⟨by decide, c5_progress_monotone 2 25 (fun _ => Except.ok ())
    [("a", some 1)] (by decide)⟩

theorem lastDotPos_none_iff : ∀ cs : List Char, lastDotPos cs = none ↔ '.' ∉ cs
  | [] => by simp [lastDotPos]
  | c :: cs => by
      unfold lastDotPos
      cases h : lastDotPos cs with
      | some i =>
          have : '.' ∈ cs := by
            by_contra hn
            rw [(lastDotPos_none_iff cs).mpr hn] at h
            exact Option.noConfusion h
          simp [this]
      | none =>
          have hnotin : '.' ∉ cs := (lastDotPos_none_iff cs).mp h
          by_cases hc : c = '.'
          · simp [hc]
          · simp [hc, hnotin]
            exact fun e => hc e.symm

theorem lastDotPos_some_drop : ∀ (cs : List Char) (i : Nat),
    lastDotPos cs = some i →
      i < cs.length ∧ cs.drop i = '.' :: cs.drop (i + 1)
  | [], i, h => by simp [lastDotPos] at h
  | c :: cs, i, h => by
      unfold lastDotPos at h
      cases h2 : lastDotPos cs with
      | some j =>
          rw [h2] at h
          have hij : i = j + 1 := by
            injection h with h3
            omega
          subst hij
          obtain ⟨hlen, hdrop⟩ := lastDotPos_some_drop cs j h2
          refine ⟨by simp; omega, ?_⟩
          rw [List.drop_succ_cons, List.drop_succ_cons]
          exact hdrop
      | none =>
          rw [h2] at h
          by_cases hc : c = '.'
          · rw [if_pos hc] at h
            have hi0 : i = 0 := by
              injection h with h3
              omega
            subst hi0
            subst hc
            exact ⟨by simp, rfl⟩
          · rw [if_neg hc] at h
            exact Option.noConfusion h

theorem stringMk_eq_empty_iff (l : List Char) : String.mk l = "" ↔ l = [] := by
  constructor
  · intro h
    have := congrArg String.toList h
    simpa using this
  · intro h
    rw [h]

/-- C6: the extension key of every file name equals the lower-cased text
after the final `'.'` of the name, with the leading separator, whenever
the name has a (`pathlib`) suffix; a name containing no `'.'` at all — or
more generally any name with an empty suffix, such as a leading-dot or
trailing-dot name — is classified under the single sentinel key
`"<no-ext>"`. -/
theorem c6_extension_classification (name : String) :
    (('.' ∉ name.toList) → extKey name = "<no-ext>") ∧
    (pySuffix name = "" → extKey name = "<no-ext>") ∧
    (∀ i, lastDotPos name.toList = some i → pySuffix name ≠ "" →
      extKey name =
        String.mk ('.' :: ((name.toList.drop (i + 1)).map Char.toLower)) ∧
      afterLastDot name = some (String.mk (name.toList.drop (i + 1)))) := by
  refine ⟨?_, ?_, ?_⟩
  · intro hnd
    have h0 : lastDotPos name.toList = none := (lastDotPos_none_iff _).mpr hnd
    have hsuf : pySuffix name = "" := by
      simp only [pySuffix]
      rw [h0]
    simp only [extKey]
    rw [hsuf]
    rfl
  · intro hsuf
    simp only [extKey]
    rw [hsuf]
    rfl
  · intro i hdot hsuf
    have hcs := lastDotPos_some_drop name.toList i hdot
    have hcond : 0 < i ∧ i < name.toList.length - 1 := by
      by_contra hc
      apply hsuf
      simp only [pySuffix]
      rw [hdot]
      exact if_neg hc
    have hsufval : pySuffix name =
        String.mk ('.' :: name.toList.drop (i + 1)) := by
      have hmid : pySuffix name =
          if 0 < i ∧ i < name.toList.length - 1
          then String.mk (name.toList.drop i) else "" := by
        simp only [pySuffix]
        rw [hdot]
      rw [hmid, if_pos hcond, hcs.2]
    constructor
    · have hne : String.mk ('.' ::
          (name.toList.drop (i + 1)).map Char.toLower) ≠ "" := by
        intro hcontra
        have := (stringMk_eq_empty_iff _).mp hcontra
        exact List.noConfusion this
      simp only [extKey]
      rw [hsufval]
      have htl : (String.mk ('.' :: name.toList.drop (i + 1))).toList =
          '.' :: name.toList.drop (i + 1) := rfl
      rw [htl, List.map_cons]
      have hdotlower : Char.toLower '.' = '.' := rfl
      rw [hdotlower, if_neg hne]
    · unfold afterLastDot
      rw [hdot]

/-- Witness for C6 at the name `"A.TXT"`: the final dot is at index 1,
the suffix is nonempty, and the key is `".txt"`. -/
theorem c6_extension_classification_witness :
    (lastDotPos "A.TXT".toList = some 1 ∧ pySuffix "A.TXT" ≠ "") ∧
    (extKey "A.TXT" =
      String.mk ('.' :: (("A.TXT".toList.drop 2).map Char.toLower)) ∧
    afterLastDot "A.TXT" = some (String.mk ("A.TXT".toList.drop 2))) :=
  ⟨⟨by decide, by decide⟩,
    (c6_extension_classification "A.TXT").2.2 1 (by decide) (by decide)⟩

/-- C7 counterexample: scanning `x.z` (5 bytes) then `y.a` (5 bytes)
produces the extension summary `[(".z", 1, 5), (".a", 1, 5)]` — the two
rows tie on totalBytes and stand in first-observation order, not in the
claimed lexical-key-ascending order (which would put `".a"` first). -/
theorem c7_tie_order_counterexample :
    collect_folder_stats_streaming [("x.z", some 5), ("y.a", some 5)] none
        200 25 neverCancel =
      Except.ok ((2, 10, [(".z", 1, 5), (".a", 1, 5)],
        [(5, "x.z"), (5, "y.a")]), [], true) ∧
    ¬ extRowsSpecOrdered [(".z", 1, 5), (".a", 1, 5)] := by
  constructor
  · simp [collect_folder_stats_streaming, scanLoopE, mkResult, initState,
      make_ext_summary, heap_to_list, isortByDesc, observe, callCb,
      neverCancel, effSize, extKey, pySuffix, lastDotPos, bump, lookupD,
      topStep, heappush, siftdown, insertByDesc, nthI, itemLt]
  · simp [extRowsSpecOrdered]
    decide

/-- C7 (amended): the summary projection sorts extension aggregates by
totalBytes descending and the top-files list by sizeBytes descending,
each a permutation of its source; both sorts are stable, so rows tying on
totalBytes keep the aggregate map's first-observation order and files
tying on sizeBytes keep the final heap's internal array order — not the
lexical-key order or the files' insertion order. -/
theorem c7_projection_order (counts sizes : List (String × Nat))
    (h : List Item) :
    (make_ext_summary counts sizes).Perm
      (counts.map (fun p => (p.1, p.2, lookupD sizes p.1))) ∧
    (make_ext_summary counts sizes).Sorted (fun a b => b.2.2 ≤ a.2.2) ∧
    (∀ v, (make_ext_summary counts sizes).filter
        (fun t => decide (t.2.2 = v)) =
      (counts.map (fun p => (p.1, p.2, lookupD sizes p.1))).filter
        (fun t => decide (t.2.2 = v))) ∧
    (heap_to_list h).Perm h ∧
    (heap_to_list h).Sorted (fun a b => b.1 ≤ a.1) ∧
    (∀ v, (heap_to_list h).filter (fun x => decide (x.1 = v)) =
      h.filter (fun x => decide (x.1 = v))) := by
  refine ⟨isortByDesc_perm _ _, isortByDesc_sorted _ _,
    fun v => isortByDesc_filter _ v _, isortByDesc_perm _ _,
    isortByDesc_sorted _ _, fun v => isortByDesc_filter _ v _⟩

theorem sum_effSize : ∀ stream : List FileRec,
    (stream.map effSize).sum = (stream.filterMap (fun r => r.2)).sum
  | [] => rfl
  | r :: rs => by
      cases hr : r.2 with
      | none =>
          simp only [List.map_cons, List.sum_cons, List.filterMap_cons, hr,
            effSize, Option.getD_none]
          rw [sum_effSize rs]
          omega
      | some v =>
          simp only [List.map_cons, List.sum_cons, List.filterMap_cons, hr,
            effSize, Option.getD_some, List.sum_cons]
          rw [sum_effSize rs]

/-- C8: every file whose size read failed (a `none` record) still counts
one file with a 0-byte contribution and aborts nothing: the uncancelled
scan returns normally with `total_files` equal to the number of
enumerated records and `total_size` equal to the sum of the successfully
read sizes. -/
theorem c8_failed_size_reads (K N : Nat) (stream : List FileRec) :
    ∃ summary top evs,
      collect_folder_stats_streaming stream none N K neverCancel =
        Except.ok ((stream.length, (stream.filterMap (fun r => r.2)).sum,
          summary, top), evs, true) := by
  refine ⟨make_ext_summary (accumulate K stream).extCounts
    (accumulate K stream).extSizes, heap_to_list (accumulate K stream).topHeap,
    [], ?_⟩
  rw [collect_noCancel_none stream N K]
  unfold mkResult
  have h1 : (accumulate K stream).totalFiles = stream.length := by
    unfold accumulate
    rw [foldl_observe_totalFiles]
    have h0 : initState.totalFiles = 0 := rfl
    omega
  have h2 : (accumulate K stream).totalSize =
      (stream.filterMap (fun r => r.2)).sum := by
    unfold accumulate
    rw [foldl_observe_totalSize]
    have h0 : initState.totalSize = 0 := rfl
    rw [h0, sum_effSize stream]
    omega
  rw [h1, h2]

mutual

theorem quick_eq_walk : ∀ t : Dir, dirClean t = true →
    quick_count_files t = (walkStream t).length
  | .node files subs => fun hc => by
      unfold quick_count_files walkStream
      have hcs : subsClean subs = true := hc
      rw [List.length_append, quickSubs_eq_walkSubs subs hcs]

theorem quickSubs_eq_walkSubs : ∀ s : Subs, subsClean s = true →
    quickSubsCount s = (walkSubs s).length
  | .nil => fun _ => rfl
  | .cons nm lnk mnt d rest => fun hc => by
      unfold quickSubsCount walkSubs
      have hc2 : (!lnk && !mnt && dirClean d && subsClean rest) = true := hc
      simp only [Bool.and_eq_true, Bool.not_eq_true'] at hc2
      obtain ⟨⟨⟨hl, hm⟩, hd⟩, hr⟩ := hc2
      rw [hl, hm, List.length_append, quick_eq_walk d hd,
        quickSubs_eq_walkSubs rest hr]
      simp

end

theorem scan_total_files_eq (t : Dir) :
    scan_total_files t = (walkStream t).length := by
  unfold scan_total_files accumulate
  rw [foldl_observe_totalFiles]
  have h0 : initState.totalFiles = 0 := rfl
  omega

/-- C10 counterexample: `quick_count_files` does prune symbolic links —
`os.walk` does not follow them by default — so on a tree whose only file
sits behind a symbolic-link directory entry it counts 0 of the 1 file
entries present, refuting the claim's "performs no symlink/mount
pruning" (a walk with no pruning would count 1). -/
theorem c10_symlink_pruned_counterexample :
    quick_count_files symTree = 0 ∧ allFilesCount symTree = 1 ∧
      scan_total_files symTree = 0 :=
  ⟨rfl, rfl, rfl⟩

/-- C10 (amended): for every root whose subtree contains no
symbolic-link and no mount-point directory entries,
`quick_count_files(root)` equals the `total_files` of an uncancelled
`collect_folder_stats_streaming(root)`; `quick_count_files` does prune
symbolic-link descent (like the scan) but performs no mount-point
pruning, so on a subtree holding a mount-point entry it counts files the
scan excludes and the two counts differ. -/
theorem c10_quick_count_refinement :
    (∀ t : Dir, dirClean t = true →
      quick_count_files t = scan_total_files t ∧
      ∃ evs, collect_folder_stats_streaming (walkStream t) none 200 25
          neverCancel =
        Except.ok (mkResult (accumulate 25 (walkStream t)), evs, true)) ∧
    quick_count_files mountTree = 1 ∧ scan_total_files mountTree = 0 := by
  refine ⟨?_, rfl, rfl⟩
  intro t hc
  refine ⟨?_, ⟨[], collect_noCancel_none _ _ _⟩⟩
  rw [quick_eq_walk t hc, scan_total_files_eq t]

/-- Witness for C10 (amended) at a concrete pruning-free tree with two
files. -/
theorem c10_quick_count_refinement_witness :
    (dirClean cleanTree = true) ∧
    (quick_count_files cleanTree = scan_total_files cleanTree ∧
      ∃ evs, collect_folder_stats_streaming (walkStream cleanTree) none 200 25
          neverCancel =
        Except.ok (mkResult (accumulate 25 (walkStream cleanTree)), evs,
          true)) :=
  ⟨by decide, c10_quick_count_refinement.1 cleanTree (by decide)⟩

end SpaceExtractor
